import Mathlib

/-!
Shallow embedding of the core of `image_duplicate_finder.py`: the three
perceptual-hash functions (`calculate_dhash`, `calculate_phash`,
`calculate_average_hash`), the Hamming distance over hex-encoded
fingerprints (`hamming_distance`), and the greedy duplicate-grouping loop
of `find_duplicate_images` (lines 136-156 of the source).

Modelling conventions:
* A decoded image is represented by the external decode/resize boundary:
  a function giving, for each requested `(width, height)`, the row-major
  grayscale pixel list that `image.convert('L').resize((w, h)).getdata()`
  would return.  Pixel values are natural numbers (PIL grayscale 0..255).
* Python's `format(value, '0{k}x')` is `toHex value k`: minimal lowercase
  hex digits, left-padded with `'0'` to width `k`.
* Python's `bin(x).count('1')` is `popCount`, and `int(s, 16)` is
  `hexToNat`.
* The float means in pHash/aHash (`avg = sum / count`) are modelled by
  exact cross-multiplication: `p >= sum / count  <->  count * p >= sum`
  for `count > 0`.  For 8-bit pixel values and the reduction sizes in use
  this is exactly the comparison the float code performs (a tie
  `p = sum / count` forces `sum / count` to be the integer `p`, which is
  an exact double, and any non-tie gap `>= 1/count` dwarfs the rounding
  error of the division).
* `popCount` and `hexDigits` use structural fuel recursion so that every
  definition reduces inside the kernel; fuel-irrelevance lemmas recover
  the natural recursion equations.
-/

/-- External decode boundary: `resized w h` is the grayscale pixel list of
the image after `convert('L').resize((w, h))`, row-major. -/
structure DecodedImage where
  resized : Nat → Nat → List Nat

/-- Fuel-driven binary popcount; `popCountAux fuel n` computes the number
of 1 bits of `n` provided `n ≤ fuel`. -/
def popCountAux : Nat → Nat → Nat
  | 0, _ => 0
  | fuel + 1, n => if n = 0 then 0 else n % 2 + popCountAux fuel (n / 2)

/-- Number of 1 bits of a natural number: embeds Python's
`bin(x).count('1')`. -/
def popCount (n : Nat) : Nat := popCountAux n n

/-- Value of one hexadecimal digit character, as `int(s, 16)` reads it
(supports `0`-`9`, `a`-`f`, `A`-`F`). -/
def hexVal (c : Char) : Nat :=
  if 97 ≤ c.toNat then c.toNat - 87
  else if 65 ≤ c.toNat then c.toNat - 55
  else c.toNat - 48

/-- Python `int(s, 16)`: fold the hex digits most-significant first. -/
def hexToNat (s : List Char) : Nat :=
  s.foldl (fun acc c => 16 * acc + hexVal c) 0

/-- Fuel-driven minimal lowercase hex representation;
`hexDigitsAux fuel v` is correct provided `v < fuel`. -/
def hexDigitsAux : Nat → Nat → List Char
  | 0, _ => []
  | fuel + 1, v =>
    if v < 16 then [Nat.digitChar v]
    else hexDigitsAux fuel (v / 16) ++ [Nat.digitChar (v % 16)]

/-- Minimal lowercase hex digits of `v` (`"0"` for zero), as Python's
`format(v, 'x')` produces. -/
def hexDigits (v : Nat) : List Char := hexDigitsAux (v + 1) v

/-- Python `format(v, '0{width}x')`: minimal hex digits left-padded with
zeros to at least `width` characters. -/
def toHex (v width : Nat) : List Char :=
  List.replicate (width - (hexDigits v).length) '0' ++ hexDigits v

/-- The bit-packing loop shared by the three hash functions:
`decimal_value = (decimal_value << 1) | bit` over the bit list.  Since
`bit < 2`, `(v << 1) | bit = 2 * v + bit`. -/
def packBits (bits : List Bool) : Nat :=
  bits.foldl (fun v b => 2 * v + (if b then 1 else 0)) 0

/-- Difference-hash bit list (source lines 19-23): for each `row`, `col`
in `[0, n)`, bit is `pixels[row*(n+1)+col] > pixels[row*(n+1)+col+1]`.
Out-of-range reads default to 0; the decode contract supplies
`(n+1)*n` pixels. -/
def dhashBits (pixels : List Nat) (n : Nat) : List Bool :=
  (List.range n).flatMap (fun row =>
    (List.range n).map (fun col =>
      decide (pixels.getD (row * (n + 1) + col + 1) 0 <
        pixels.getD (row * (n + 1) + col) 0)))

/-- `calculate_dhash` (source lines 10-30): resize to `(n+1) × n`,
difference bits, pack, hex-encode padded to `n^2 / 4` digits. -/
def calculate_dhash (img : DecodedImage) (hash_size : Nat) : List Char :=
  toHex (packBits (dhashBits (img.resized (hash_size + 1) hash_size) hash_size))
    (hash_size ^ 2 / 4)

/-- Perceptual-hash bit list (source lines 39-51).  The `dct` array is a
verbatim element-wise copy of the pixel grid (lines 42-45), so it is the
pixel list itself.  `avg = (sum - pixels[0]) / (n*n - 1)` and the bit is
`p >= avg`, cross-multiplied to `(n*n - 1) * p >= sum - pixels[0]`. -/
def phashBits (pixels : List Nat) (n : Nat) : List Bool :=
  pixels.map (fun p =>
    decide (pixels.sum - pixels.getD 0 0 ≤ (n * n - 1) * p))

/-- `calculate_phash` (source lines 33-58): resize to `n × n`, copy grid
(no discrete cosine transform), threshold against the mean that excludes
the top-left cell, pack, hex-encode. -/
def calculate_phash (img : DecodedImage) (hash_size : Nat) : List Char :=
  toHex (packBits (phashBits (img.resized hash_size hash_size) hash_size))
    (hash_size ^ 2 / 4)

/-- Average-hash bit list (source lines 67-73): `avg = sum / len` and the
bit is `p >= avg`, cross-multiplied to `len * p >= sum`. -/
def ahashBits (pixels : List Nat) : List Bool :=
  pixels.map (fun p => decide (pixels.sum ≤ pixels.length * p))

/-- `calculate_average_hash` (source lines 61-80): resize to `n × n`,
threshold against the mean of all pixels, pack, hex-encode. -/
def calculate_average_hash (img : DecodedImage) (hash_size : Nat) : List Char :=
  toHex (packBits (ahashBits (img.resized hash_size hash_size)))
    (hash_size ^ 2 / 4)

/-- `hamming_distance` (source lines 83-89): decode both hex strings and
count the 1 bits of their xor.  No width check of any kind is performed. -/
def hamming_distance (hash1 hash2 : List Char) : Nat :=
  popCount (hexToNat hash1 ^^^ hexToNat hash2)

/-- Hash-method dispatch of `find_duplicate_images` (source lines
119-127): unknown selector strings silently fall back to dHash.  All
branches call with the default `hash_size = 8`. -/
def computeHash (hash_method : String) (img : DecodedImage) : List Char :=
  if hash_method = "dhash" then calculate_dhash img 8
  else if hash_method = "phash" then calculate_phash img 8
  else if hash_method = "ahash" then calculate_average_hash img 8
  else calculate_dhash img 8

/-- Python `enumerate` starting at index `n`. -/
def enumF : Nat → List α → List (Nat × α)
  | _, [] => []
  | n, x :: xs => (n, x) :: enumF (n + 1) xs

/-- Inner scan of `find_duplicate_images` (source lines 145-150): walk
the enumerated full image list; claim `j`'s path into the group whenever
`i ≠ j`, the path is unclaimed, and the distance is within threshold. -/
def scanLoop (seed : Nat) (h1 : List Char) (t : Nat) :
    List (Nat × String × List Char) → List String → List String →
    List String × List String
  | [], grp, proc => (grp, proc)
  | (j, p2, h2) :: rest, grp, proc =>
    if seed ≠ j ∧ p2 ∉ proc ∧ hamming_distance h1 h2 ≤ t then
      scanLoop seed h1 t rest (grp ++ [p2]) (p2 :: proc)
    else
      scanLoop seed h1 t rest grp proc

/-- Outer loop of `find_duplicate_images` (source lines 139-154): `E` is
the enumerated full image list (scanned from the top for every seed), the
first list argument is the remaining enumerated entries.  A seed whose
group stays a singleton is not emitted and stays unclaimed. -/
def groupLoop (E : List (Nat × String × List Char)) (t : Nat) :
    List (Nat × String × List Char) → List String → List (List String) →
    List (List String)
  | [], _, dups => dups
  | (i, p1, h1) :: rest, proc, dups =>
    if p1 ∈ proc then groupLoop E t rest proc dups
    else
      if 1 < (scanLoop i h1 t E [p1] proc).1.length then
        groupLoop E t rest (p1 :: (scanLoop i h1 t E [p1] proc).2)
          (dups ++ [(scanLoop i h1 t E [p1] proc).1])
      else
        groupLoop E t rest (scanLoop i h1 t E [p1] proc).2 dups

/-- Grouping phase of `find_duplicate_images` (source lines 136-156),
taking the already-hashed `(path, fingerprint)` list. -/
def find_duplicate_images (images : List (String × List Char)) (t : Nat) :
    List (List String) :=
  groupLoop (enumF 0 images) t (enumF 0 images) [] []

/-- Full pipeline below the decode boundary (source lines 111-156): hash
every decoded image with the selected method, then group. -/
def find_duplicate_images_full (files : List (String × DecodedImage))
    (t : Nat) (hash_method : String) : List (List String) :=
  find_duplicate_images
    (files.map (fun f => (f.1, computeHash hash_method f.2))) t

/-- Forward-only scan as specified in §4.3 step 3 of the spec: from seed
`i`, scan only the pairs after `i` in the list.  Second definition for
the refinement claim; compared against `scanLoop` over the full list. -/
def scanLoopSpec (h1 : List Char) (t : Nat) :
    List (String × List Char) → List String → List String →
    List String × List String
  | [], grp, proc => (grp, proc)
  | (p2, h2) :: rest, grp, proc =>
    if p2 ∉ proc ∧ hamming_distance h1 h2 ≤ t then
      scanLoopSpec h1 t rest (grp ++ [p2]) (p2 :: proc)
    else
      scanLoopSpec h1 t rest grp proc

/-- Outer loop of the spec's §4.3 algorithm: each unclaimed seed scans
only the subsequent pairs. -/
def groupLoopSpec (t : Nat) :
    List (String × List Char) → List String → List (List String) →
    List (List String)
  | [], _, dups => dups
  | (p1, h1) :: rest, proc, dups =>
    if p1 ∈ proc then groupLoopSpec t rest proc dups
    else
      if 1 < (scanLoopSpec h1 t rest [p1] proc).1.length then
        groupLoopSpec t rest (p1 :: (scanLoopSpec h1 t rest [p1] proc).2)
          (dups ++ [(scanLoopSpec h1 t rest [p1] proc).1])
      else
        groupLoopSpec t rest (scanLoopSpec h1 t rest [p1] proc).2 dups

/-- The spec's §4.3 grouping algorithm (forward-only scans). -/
def find_duplicate_images_spec (images : List (String × List Char))
    (t : Nat) : List (List String) :=
  groupLoopSpec t images [] []

/-! ### Basic lemmas about `popCount` -/

theorem popCountAux_zero : ∀ fuel, popCountAux fuel 0 = 0
  | 0 => rfl
  | _ + 1 => by simp [popCountAux]

theorem popCountAux_irrel :
    ∀ f g n, n ≤ f → n ≤ g → popCountAux f n = popCountAux g n := by
  intro f
  induction f with
  | zero =>
    intro g n hf _
    have : n = 0 := Nat.le_zero.mp hf
    subst this
    rw [popCountAux_zero, popCountAux_zero]
  | succ f ih =>
    intro g n hf hg
    by_cases h0 : n = 0
    · subst h0; rw [popCountAux_zero, popCountAux_zero]
    · cases g with
      | zero => omega
      | succ g =>
        simp only [popCountAux, h0, if_false]
        have hlt : n / 2 < n := Nat.div_lt_self (Nat.pos_of_ne_zero h0) (by omega)
        have := ih g (n / 2) (by omega) (by omega)
        omega

theorem popCount_zero : popCount 0 = 0 := rfl

theorem popCount_rec {n : Nat} (h : n ≠ 0) :
    popCount n = n % 2 + popCount (n / 2) := by
  cases n with
  | zero => exact absurd rfl h
  | succ k =>
    show popCountAux (k + 1) (k + 1) = _
    simp only [popCountAux, Nat.succ_ne_zero, if_false]
    have hlt : (k + 1) / 2 < k + 1 := Nat.div_lt_self (Nat.succ_pos k) (by omega)
    rw [popCountAux_irrel k ((k + 1) / 2) ((k + 1) / 2) (by omega) (by omega)]
    rfl

/-- Triangle building block: popcount of an xor is at most the sum of
the popcounts. -/
theorem popCount_xor_le (a : Nat) : ∀ b : Nat,
    popCount (a ^^^ b) ≤ popCount a + popCount b := by
  induction a using Nat.strong_induction_on with
  | _ a ih =>
    intro b
    by_cases ha : a = 0
    · subst ha; rw [Nat.zero_xor, popCount_zero]; omega
    by_cases hb : b = 0
    · subst hb; rw [Nat.xor_zero, popCount_zero]; omega
    by_cases hx : a ^^^ b = 0
    · rw [hx, popCount_zero]; omega
    rw [popCount_rec hx, popCount_rec ha, popCount_rec hb, Nat.xor_div_two]
    have h1 : popCount (a / 2 ^^^ b / 2) ≤ popCount (a / 2) + popCount (b / 2) :=
      ih (a / 2) (Nat.div_lt_self (Nat.pos_of_ne_zero ha) (by omega)) (b / 2)
    have h2 : (a ^^^ b) % 2 ≤ a % 2 + b % 2 := by
      rw [Nat.xor_mod_two_eq, Nat.add_mod]
      exact Nat.le_trans (Nat.mod_le _ 2) (Nat.le_refl _)
    omega

/-- If a value is below `2 ^ k` its popcount is at most `k`. -/
theorem popCount_le_of_lt {k : Nat} : ∀ {v : Nat}, v < 2 ^ k → popCount v ≤ k := by
  induction k with
  | zero =>
    intro v hv
    have : v = 0 := by simpa using hv
    simp [this, popCount_zero]
  | succ k ih =>
    intro v hv
    by_cases h0 : v = 0
    · simp [h0, popCount_zero]
    · rw [popCount_rec h0]
      have h2 : v < 2 ^ k * 2 := by rw [← pow_succ]; exact hv
      have : v / 2 < 2 ^ k := (Nat.div_lt_iff_lt_mul (by omega)).mpr h2
      have := ih this
      omega

/-- Nat xor stays below a common power-of-two bound. -/
theorem xor_lt_two_pow {x y n : Nat} (hx : x < 2 ^ n) (hy : y < 2 ^ n) :
    x ^^^ y < 2 ^ n :=
  Nat.bitwise_lt hx hy

/-- `hamming_distance` is symmetric because xor is commutative. -/
theorem hamming_distance_comm (h1 h2 : List Char) :
    hamming_distance h1 h2 = hamming_distance h2 h1 := by
  unfold hamming_distance
  rw [Nat.xor_comm]

/-! ### Hex encoding lemmas -/

theorem hexVal_digitChar : ∀ d, d < 16 → hexVal (Nat.digitChar d) = d := by decide

theorem hexDigitsAux_irrel :
    ∀ f g v, v < f → v < g → hexDigitsAux f v = hexDigitsAux g v := by
  intro f
  induction f with
  | zero => intro g v hf; omega
  | succ f ih =>
    intro g v hf hg
    cases g with
    | zero => omega
    | succ g =>
      by_cases h16 : v < 16
      · simp [hexDigitsAux, h16]
      · simp only [hexDigitsAux, h16, if_false]
        have hlt : v / 16 < v := Nat.div_lt_self (by omega) (by omega)
        rw [ih g (v / 16) (by omega) (by omega)]

theorem hexDigits_of_lt {v : Nat} (h : v < 16) :
    hexDigits v = [Nat.digitChar v] := by
  simp [hexDigits, hexDigitsAux, h]

theorem hexDigits_of_ge {v : Nat} (h : 16 ≤ v) :
    hexDigits v = hexDigits (v / 16) ++ [Nat.digitChar (v % 16)] := by
  show hexDigitsAux (v + 1) v = _
  have hne : ¬ v < 16 := by omega
  simp only [hexDigitsAux, hne, if_false]
  rw [hexDigitsAux_irrel v (v / 16 + 1) (v / 16)
    (Nat.div_lt_self (by omega) (by omega)) (Nat.lt_succ_self _)]
  rfl

theorem hexDigits_length_pos (v : Nat) : 0 < (hexDigits v).length := by
  by_cases h : v < 16
  · simp [hexDigits_of_lt h]
  · rw [hexDigits_of_ge (by omega)]
    simp

/-- Folding the hex decoder over the digits of `v` recovers `v` on top of
the shifted accumulator. -/
theorem hexDigits_foldl (v : Nat) : ∀ acc : Nat,
    List.foldl (fun acc c => 16 * acc + hexVal c) acc (hexDigits v) =
      acc * 16 ^ (hexDigits v).length + v := by
  induction v using Nat.strong_induction_on with
  | _ v ih =>
    intro acc
    by_cases h : v < 16
    · simp [hexDigits_of_lt h, hexVal_digitChar v h]
      ring
    · have h16 : 16 ≤ v := by omega
      rw [hexDigits_of_ge h16, List.foldl_append]
      have hlt : v / 16 < v := Nat.div_lt_self (by omega) (by omega)
      rw [ih (v / 16) hlt acc]
      simp only [List.foldl_cons, List.foldl_nil, List.length_append,
        List.length_cons, List.length_nil]
      rw [hexVal_digitChar (v % 16) (Nat.mod_lt _ (by omega))]
      have := Nat.div_add_mod v 16
      ring_nf
      omega

theorem hexToNat_hexDigits (v : Nat) : hexToNat (hexDigits v) = v := by
  have := hexDigits_foldl v 0
  simpa [hexToNat] using this

theorem hexVal_zero_char : hexVal '0' = 0 := by decide

/-- Leading zero padding does not change the decoded value. -/
theorem foldl_replicate_zero (m : Nat) (ds : List Char) :
    List.foldl (fun acc c => 16 * acc + hexVal c) 0 (List.replicate m '0' ++ ds) =
      List.foldl (fun acc c => 16 * acc + hexVal c) 0 ds := by
  induction m with
  | zero => simp
  | succ m ih =>
    rw [List.replicate_succ, List.cons_append, List.foldl_cons]
    simpa [hexVal_zero_char] using ih

/-- Round trip: Python's `int(format(v, '0{k}x'), 16)` is `v`. -/
theorem hexToNat_toHex (v k : Nat) : hexToNat (toHex v k) = v := by
  unfold toHex hexToNat
  rw [foldl_replicate_zero]
  exact hexToNat_hexDigits v

theorem hexDigits_length_le : ∀ k, 1 ≤ k → ∀ v, v < 16 ^ k →
    (hexDigits v).length ≤ k := by
  intro k
  induction k with
  | zero => omega
  | succ k ih =>
    intro _ v hv
    by_cases h : v < 16
    · simp [hexDigits_of_lt h]
    · have h16 : 16 ≤ v := by omega
      rw [hexDigits_of_ge h16]
      have hk : 1 ≤ k := by
        by_contra hk
        have : k = 0 := by omega
        subst this
        simp [pow_succ] at hv
        omega
      have hdiv : v / 16 < 16 ^ k := by
        rw [Nat.div_lt_iff_lt_mul (by omega)]
        calc v < 16 ^ (k + 1) := hv
        _ = 16 ^ k * 16 := by rw [pow_succ]
      have := ih hk (v / 16) hdiv
      simp only [List.length_append, List.length_cons, List.length_nil]
      omega

theorem toHex_length_eq {v k : Nat} (hk : 1 ≤ k) (hv : v < 16 ^ k) :
    (toHex v k).length = k := by
  have hle := hexDigits_length_le k hk v hv
  simp only [toHex, List.length_append, List.length_replicate]
  omega

/-! ### Bit packing lemmas -/

theorem packBits_foldl_lt : ∀ (bits : List Bool) (acc : Nat),
    List.foldl (fun v b => 2 * v + (if b then 1 else 0)) acc bits <
      (acc + 1) * 2 ^ bits.length := by
  intro bits
  induction bits with
  | nil => intro acc; simp
  | cons b bs ih =>
    intro acc
    have h1 := ih (2 * acc + (if b then 1 else 0))
    have h2 : (2 * acc + (if b then 1 else 0) + 1) * 2 ^ bs.length ≤
        (acc + 1) * 2 ^ (bs.length + 1) := by
      have hb : (if b then 1 else 0) ≤ 1 := by cases b <;> simp
      have : 2 * acc + (if b then 1 else 0) + 1 ≤ 2 * (acc + 1) := by omega
      calc (2 * acc + (if b then 1 else 0) + 1) * 2 ^ bs.length
          ≤ 2 * (acc + 1) * 2 ^ bs.length := Nat.mul_le_mul_right _ this
        _ = (acc + 1) * 2 ^ (bs.length + 1) := by ring
    simp only [List.foldl_cons, List.length_cons]
    exact Nat.lt_of_lt_of_le h1 h2

theorem packBits_lt (bits : List Bool) : packBits bits < 2 ^ bits.length := by
  have := packBits_foldl_lt bits 0
  simpa [packBits] using this

theorem length_flatMap_const {α β : Type} (g : α → List β) (n : Nat)
    (h : ∀ a, (g a).length = n) :
    ∀ l : List α, (l.flatMap g).length = l.length * n := by
  intro l
  induction l with
  | nil => simp
  | cons x xs ih =>
    rw [List.flatMap_cons, List.length_append, h, ih, List.length_cons]
    ring

theorem dhashBits_length (pixels : List Nat) (n : Nat) :
    (dhashBits pixels n).length = n * n := by
  unfold dhashBits
  rw [length_flatMap_const _ n (fun a => by simp), List.length_range]

/-! ### Claim C1 -/

/-- Claim C1, premise impossibility: `hamming_distance` is the popcount
of an xor, hence obeys the triangle inequality.  No triple of
fingerprints (of any widths) can have pairwise distances 3, 3 and 9, so
the run described by the claim cannot arise on this code. -/
theorem c1_counterexample :
    ¬ ∃ fa fb fc : List Char,
      (fa.length = fb.length ∧ fb.length = fc.length) ∧
      hamming_distance fa fb = 3 ∧ hamming_distance fb fc = 3 ∧
      hamming_distance fa fc = 9 := by
  rintro ⟨fa, fb, fc, -, hab, hbc, hac⟩
  have h := popCount_xor_le (hexToNat fa ^^^ hexToNat fb)
    (hexToNat fb ^^^ hexToNat fc)
  rw [Nat.xor_assoc, Nat.xor_cancel_left] at h
  unfold hamming_distance at hab hbc hac
  omega

/-- Claim C1, amended: on the nearest realizable chain (distances
`d(A,B)=3`, `d(B,C)=3`, `d(A,C)=6`; the triangle inequality caps
`d(A,C)` at 6), threshold 5, order `[A, B, C]`, the grouper emits exactly
one group `[A, B]` and `C` stays ungrouped: every candidate is compared
against the seed `A` only, and `d(A,C) = 6 > 5`. -/
theorem c1_amended :
    hamming_distance ['0', '0'] ['0', '7'] = 3 ∧
    hamming_distance ['0', '7'] ['3', 'f'] = 3 ∧
    hamming_distance ['0', '0'] ['3', 'f'] = 6 ∧
    find_duplicate_images
      [("A", ['0', '0']), ("B", ['0', '7']), ("C", ['3', 'f'])] 5 =
      [["A", "B"]] := by decide

/-! ### Claim C2 -/

/-- A concrete decoded image used in counterexamples. -/
def imgZig : DecodedImage := ⟨fun w h => (List.range (w * h)).map (fun i => i % 3 * 100)⟩

set_option maxRecDepth 4000 in
/-- Claim C2, counterexample: `hamming_distance` performs no width check.
The same image hashed with reduction sizes 4 and 8 yields fingerprints of
4 and 16 hex digits (16 vs 64 bits); their distance is computed anyway
and returns the bit-difference count 19 — no `WidthMismatch` failure
exists anywhere in the code. -/
theorem c2_counterexample :
    (calculate_dhash imgZig 4).length = 4 ∧
    (calculate_dhash imgZig 8).length = 16 ∧
    hamming_distance (calculate_dhash imgZig 4) (calculate_dhash imgZig 8) = 19 := by
  decide

/-- Claim C2, amended: comparing fingerprints of different reduction
sizes does not fail; `hamming_distance` returns the popcount of the xor
of the two decoded values, a bit-difference count bounded by the larger
fingerprint width. -/
theorem c2_amended (a b : DecodedImage) (n m : Nat) :
    hamming_distance (calculate_dhash a n) (calculate_dhash b m) ≤
      max (n * n) (m * m) := by
  unfold calculate_dhash hamming_distance
  rw [hexToNat_toHex, hexToNat_toHex]
  apply popCount_le_of_lt
  apply xor_lt_two_pow
  · calc packBits (dhashBits (a.resized (n + 1) n) n)
        < 2 ^ (dhashBits (a.resized (n + 1) n) n).length := packBits_lt _
      _ = 2 ^ (n * n) := by rw [dhashBits_length]
      _ ≤ 2 ^ max (n * n) (m * m) :=
        Nat.pow_le_pow_right (by omega) (Nat.le_max_left _ _)
  · calc packBits (dhashBits (b.resized (m + 1) m) m)
        < 2 ^ (dhashBits (b.resized (m + 1) m) m).length := packBits_lt _
      _ = 2 ^ (m * m) := by rw [dhashBits_length]
      _ ≤ 2 ^ max (n * n) (m * m) :=
        Nat.pow_le_pow_right (by omega) (Nat.le_max_right _ _)

/-! ### Claim C10 -/

/-- Claim C10: every hash-method selector other than `dhash`, `phash`
and `ahash` is accepted without error and silently falls back to the
difference hash, so the pipeline output equals the `dhash` output. -/
theorem c10_unknown_selector_falls_back_to_dhash
    (files : List (String × DecodedImage)) (t : Nat) (m : String)
    (h1 : m ≠ "dhash") (h2 : m ≠ "phash") (h3 : m ≠ "ahash") :
    find_duplicate_images_full files t m =
      find_duplicate_images_full files t "dhash" := by
  unfold find_duplicate_images_full
  have hc : ∀ img : DecodedImage, computeHash m img = computeHash "dhash" img := by
    intro img
    simp [computeHash, h1, h2, h3]
  have : (fun f : String × DecodedImage => (f.1, computeHash m f.2)) =
      (fun f => (f.1, computeHash "dhash" f.2)) := by
    funext f
    rw [hc]
  rw [this]

theorem c10_witness :
    ("xhash" ≠ "dhash" ∧ "xhash" ≠ "phash" ∧ "xhash" ≠ "ahash") ∧
    find_duplicate_images_full [("A", imgZig)] 5 "xhash" =
      find_duplicate_images_full [("A", imgZig)] 5 "dhash" :=
  ⟨by decide, c10_unknown_selector_falls_back_to_dhash [("A", imgZig)] 5 "xhash"
    (by decide) (by decide) (by decide)⟩

/-! ### Claim C9 -/

/-- Claim C9, counterexample: with the odd reduction size 3 the padded
hex encoding of a difference hash has 2 digits (the packed value here is
below 256), and `4 * 2 ≠ 3 * 3`: the hex length in bits can never equal
`n * n` when `n` is odd. -/
theorem c9_counterexample :
    ¬ 4 * (calculate_dhash imgZig 3).length = 3 * 3 := by decide

/-- Shared hex-width fact: packing `n * n` bits and padding to
`n ^ 2 / 4` digits yields exactly `n * n / 4` hex digits when `n` is
even and at least 2. -/
theorem toHex_pack_length (bits : List Bool) (n : Nat) (h2 : 2 ≤ n)
    (he : n % 2 = 0) (hb : bits.length = n * n) :
    4 * (toHex (packBits bits) (n ^ 2 / 4)).length = n * n := by
  obtain ⟨m, hm⟩ : ∃ m, n = 2 * m := ⟨n / 2, by omega⟩
  have hm1 : 1 ≤ m := by omega
  have hnn : n * n = 4 * (m * m) := by subst hm; ring
  have hk : n ^ 2 / 4 = m * m := by
    have hsq : n ^ 2 = 4 * (m * m) := by rw [pow_two, hnn]
    rw [hsq, Nat.mul_div_cancel_left _ (by omega)]
  have hkpos : 1 ≤ m * m := Nat.mul_le_mul hm1 hm1
  have hv : packBits bits < 16 ^ (m * m) := by
    have h1 := packBits_lt bits
    rw [hb, hnn] at h1
    calc packBits bits < 2 ^ (4 * (m * m)) := h1
      _ = 16 ^ (m * m) := by rw [Nat.pow_mul]
  rw [hk, toHex_length_eq hkpos hv]
  omega

/-- Claim C9, amended: for every even reduction size `n ≥ 2` (so that
`n * n` is a multiple of 4) and every decoded image honouring the resize
contract, all three hash algorithms return a hex encoding denoting
exactly `n * n` bits.  For odd `n` the claim fails (see the
counterexample). -/
theorem c9_amended (img : DecodedImage) (n : Nat) (h2 : 2 ≤ n)
    (he : n % 2 = 0) (hp : (img.resized n n).length = n * n) :
    4 * (calculate_dhash img n).length = n * n ∧
    4 * (calculate_phash img n).length = n * n ∧
    4 * (calculate_average_hash img n).length = n * n := by
  refine ⟨?_, ?_, ?_⟩
  · exact toHex_pack_length _ n h2 he (dhashBits_length _ n)
  · exact toHex_pack_length _ n h2 he (by simp [phashBits, hp])
  · exact toHex_pack_length _ n h2 he (by simp [ahashBits, hp])

theorem c9_witness :
    (2 ≤ 2 ∧ 2 % 2 = 0 ∧ (imgZig.resized 2 2).length = 2 * 2) ∧
    (4 * (calculate_dhash imgZig 2).length = 2 * 2 ∧
     4 * (calculate_phash imgZig 2).length = 2 * 2 ∧
     4 * (calculate_average_hash imgZig 2).length = 2 * 2) :=
  ⟨by decide, c9_amended imgZig 2 (by decide) (by decide) (by decide)⟩

/-! ### Claim C8 -/

theorem packBits_append_bit (bs : List Bool) (b : Bool) :
    packBits (bs ++ [b]) = 2 * packBits bs + (if b then 1 else 0) := by
  unfold packBits
  rw [List.foldl_append]
  rfl

/-- Packing is most-significant bit first: bit `j` of the list lands at
binary position `length - 1 - j` of the packed value. -/
theorem testBit_packBits : ∀ (bs : List Bool) (j : Nat), j < bs.length →
    Nat.testBit (packBits bs) (bs.length - 1 - j) = bs.getD j false := by
  intro bs
  induction bs using List.reverseRecOn with
  | nil => intro j h; simp at h
  | append_singleton bs b ih =>
    intro j hj
    rw [packBits_append_bit]
    have hlen : (bs ++ [b]).length = bs.length + 1 := by simp
    by_cases hj2 : j = bs.length
    · subst hj2
      have hidx : (bs ++ [b]).length - 1 - bs.length = 0 := by omega
      rw [hidx]
      have hget : (bs ++ [b]).getD bs.length false = b := by
        simp [List.getD_eq_getElem?_getD,
          List.getElem?_append_right (Nat.le_refl bs.length)]
      rw [hget, Nat.testBit_zero]
      cases b <;> simp <;> omega
    · have hj3 : j < bs.length := by rw [hlen] at hj; omega
      have hidx : (bs ++ [b]).length - 1 - j = (bs.length - 1 - j) + 1 := by
        rw [hlen]; omega
      rw [hidx, Nat.testBit_add_one]
      have hdiv : (2 * packBits bs + (if b then 1 else 0)) / 2 = packBits bs := by
        cases b <;> simp <;> omega
      rw [hdiv]
      have hget : (bs ++ [b]).getD j false = bs.getD j false := by
        simp [List.getD_eq_getElem?_getD, List.getElem?_append_left hj3]
      rw [hget]
      exact ih j hj3

/-- Claim C8: the simplified perceptual hash consumes the raw resized
pixel grid (the `dct` array is copied verbatim from the pixels, no
discrete cosine transform), thresholds every cell — the top-left one
included — against the mean that excludes the top-left cell, and packs
the bits row-major most-significant first.  Stated via the decoded hash
value: bit `n*n - 1 - k` is set exactly when pixel `k` (row-major) is
at least the exclusive mean, in exact cross-multiplied arithmetic.
`2 ≤ n` keeps the exact model aligned with the float division of the
source (for `n = 1` the source divides by zero). -/
theorem c8_phash_semantics (img : DecodedImage) (n k : Nat) (h2 : 2 ≤ n)
    (hp : (img.resized n n).length = n * n) (hk : k < n * n) :
    Nat.testBit (hexToNat (calculate_phash img n)) (n * n - 1 - k) =
      decide ((img.resized n n).sum - (img.resized n n).getD 0 0 ≤
        (n * n - 1) * (img.resized n n).getD k 0) := by
  unfold calculate_phash
  rw [hexToNat_toHex]
  have hlen : (phashBits (img.resized n n) n).length = n * n := by
    simp [phashBits, hp]
  have hbit := testBit_packBits (phashBits (img.resized n n) n) k
    (by rw [hlen]; exact hk)
  rw [hlen] at hbit
  rw [hbit]
  unfold phashBits
  have hk' : k < (img.resized n n).length := by omega
  simp [List.getD_eq_getElem?_getD, List.getElem?_eq_getElem hk']

theorem c8_witness :
    (2 ≤ 2 ∧ (imgZig.resized 2 2).length = 2 * 2 ∧ 1 < 2 * 2) ∧
    Nat.testBit (hexToNat (calculate_phash imgZig 2)) (2 * 2 - 1 - 1) =
      decide ((imgZig.resized 2 2).sum - (imgZig.resized 2 2).getD 0 0 ≤
        (2 * 2 - 1) * (imgZig.resized 2 2).getD 1 0) :=
  ⟨by decide, c8_phash_semantics imgZig 2 1 (by decide) (by decide) (by decide)⟩

/-! ### Enumeration lemmas -/

theorem enumF_append (l1 : List α) : ∀ (n : Nat) (l2 : List α),
    enumF n (l1 ++ l2) = enumF n l1 ++ enumF (n + l1.length) l2 := by
  induction l1 with
  | nil => intro n l2; simp [enumF]
  | cons x xs ih =>
    intro n l2
    have harith : n + 1 + xs.length = n + (xs.length + 1) := by omega
    simp only [List.cons_append, enumF, List.length_cons, List.append_eq, ih, harith]

theorem mem_enumF_lb : ∀ (l : List α) (n j : Nat) (x : α),
    (j, x) ∈ enumF n l → n ≤ j := by
  intro l
  induction l with
  | nil => intro n j x h; simp [enumF] at h
  | cons y ys ih =>
    intro n j x h
    simp only [enumF, List.mem_cons, Prod.mk.injEq] at h
    rcases h with ⟨hj, _⟩ | h
    · omega
    · have := ih (n + 1) j x h
      omega

theorem enumF_functional : ∀ (l : List α) (n j : Nat) (x y : α),
    (j, x) ∈ enumF n l → (j, y) ∈ enumF n l → x = y := by
  intro l
  induction l with
  | nil => intro n j x y h; simp [enumF] at h
  | cons z zs ih =>
    intro n j x y hx hy
    simp only [enumF, List.mem_cons, Prod.mk.injEq] at hx hy
    rcases hx with ⟨hj, hx⟩ | hx
    · rcases hy with ⟨_, hy⟩ | hy
      · rw [hx, hy]
      · subst hj; have := mem_enumF_lb zs (j + 1) j y hy; omega
    · rcases hy with ⟨hj, hy⟩ | hy
      · subst hj; have := mem_enumF_lb zs (j + 1) j x hx; omega
      · exact ih (n + 1) j x y hx hy

theorem mem_enumF_mem : ∀ (l : List α) (n j : Nat) (x : α),
    (j, x) ∈ enumF n l → x ∈ l := by
  intro l
  induction l with
  | nil => intro n j x h; simp [enumF] at h
  | cons y ys ih =>
    intro n j x h
    simp only [enumF, List.mem_cons, Prod.mk.injEq] at h
    rcases h with ⟨_, hx⟩ | h
    · simp [hx]
    · simp [ih (n + 1) j x h]

theorem mem_enumF_of_mem : ∀ (l : List α) (x : α), x ∈ l → ∀ n : Nat,
    ∃ j, (j, x) ∈ enumF n l := by
  intro l
  induction l with
  | nil => intro x h; simp at h
  | cons y ys ih =>
    intro x h n
    rcases List.mem_cons.mp h with h | h
    · exact ⟨n, by simp [enumF, h]⟩
    · obtain ⟨j, hj⟩ := ih x h (n + 1)
      exact ⟨j, by simp [enumF]; right; exact hj⟩

/-- With pairwise-distinct first components, an enumerated list carries
each first component at a unique index. -/
theorem enumF_index_inj {β γ : Type} : ∀ (l : List (β × γ)) (n : Nat),
    (l.map Prod.fst).Nodup →
    ∀ (j j' : Nat) (x x' : β × γ), (j, x) ∈ enumF n l → (j', x') ∈ enumF n l →
    x.1 = x'.1 → j = j' := by
  intro l
  induction l with
  | nil => intro n _ j j' x x' h; simp [enumF] at h
  | cons y ys ih =>
    intro n hnd j j' x x' hx hy hfst
    rw [List.map_cons, List.nodup_cons] at hnd
    simp only [enumF, List.mem_cons, Prod.mk.injEq] at hx hy
    rcases hx with ⟨hj, hx⟩ | hx
    · rcases hy with ⟨hj', _⟩ | hy
      · omega
      · exfalso
        apply hnd.1
        have : x' ∈ ys := mem_enumF_mem ys (n + 1) j' x' hy
        rw [hx] at hfst
        rw [hfst]
        exact List.mem_map_of_mem Prod.fst this
    · rcases hy with ⟨hj', hy⟩ | hy
      · exfalso
        apply hnd.1
        have : x ∈ ys := mem_enumF_mem ys (n + 1) j x hx
        rw [hy] at hfst
        rw [← hfst]
        exact List.mem_map_of_mem Prod.fst this
      · exact ih (n + 1) hnd.2 j j' x x' hx hy hfst

/-- With pairwise-distinct first components, the second component is a
function of the first. -/
theorem nodupFst_functional {β γ : Type} [DecidableEq β] :
    ∀ (l : List (β × γ)), (l.map Prod.fst).Nodup →
    ∀ (p : β) (a b : γ), (p, a) ∈ l → (p, b) ∈ l → a = b := by
  intro l
  induction l with
  | nil => intro _ p a b h; simp at h
  | cons y ys ih =>
    intro hnd p a b ha hb
    rw [List.map_cons, List.nodup_cons] at hnd
    rcases List.mem_cons.mp ha with ha | ha
    · rcases List.mem_cons.mp hb with hb | hb
      · rw [← ha] at hb
        exact (Prod.ext_iff.mp hb).2.symm
      · exfalso
        apply hnd.1
        rw [← ha]
        exact List.mem_map.mpr ⟨(p, b), hb, rfl⟩
    · rcases List.mem_cons.mp hb with hb | hb
      · exfalso
        apply hnd.1
        rw [← hb]
        exact List.mem_map.mpr ⟨(p, a), ha, rfl⟩
      · exact ih hnd.2 p a b ha hb

/-! ### Scan loop structure -/

/-- One structural lemma covering the inner scan: the result group is
the starting group extended by a duplicate-free batch of newly claimed
paths, the claimed set grows by exactly that batch, and every newly
claimed path was unclaimed, sits in the scanned list away from the seed
index, and is within threshold of the seed fingerprint. -/
theorem scanLoop_structure (seed : Nat) (h1 : List Char) (t : Nat) :
    ∀ (l : List (Nat × String × List Char)) (grp proc : List String),
    ∃ new : List String,
      (scanLoop seed h1 t l grp proc).1 = grp ++ new ∧
      (∀ r, r ∈ (scanLoop seed h1 t l grp proc).2 ↔ r ∈ proc ∨ r ∈ new) ∧
      new.Nodup ∧
      (∀ r ∈ new, r ∉ proc ∧ ∃ j h2, (j, r, h2) ∈ l ∧ seed ≠ j ∧
        hamming_distance h1 h2 ≤ t) := by
  intro l
  induction l with
  | nil =>
    intro grp proc
    exact ⟨[], by simp [scanLoop], by simp [scanLoop], List.nodup_nil, by simp⟩
  | cons e rest ih =>
    obtain ⟨j, p2, hsh⟩ := e
    intro grp proc
    by_cases hc : seed ≠ j ∧ p2 ∉ proc ∧ hamming_distance h1 hsh ≤ t
    · obtain ⟨new', ha, hb, hn, hm⟩ := ih (grp ++ [p2]) (p2 :: proc)
      have hstep : scanLoop seed h1 t ((j, p2, hsh) :: rest) grp proc =
          scanLoop seed h1 t rest (grp ++ [p2]) (p2 :: proc) := by
        simp only [scanLoop, if_pos hc]
      refine ⟨p2 :: new', ?_, ?_, ?_, ?_⟩
      · rw [hstep, ha]; simp
      · intro r
        rw [hstep, hb r]
        simp only [List.mem_cons]
        tauto
      · refine List.nodup_cons.mpr ⟨?_, hn⟩
        intro hmem
        exact (hm p2 hmem).1 (List.mem_cons_self p2 proc)
      · intro r hr
        rcases List.mem_cons.mp hr with hr | hr
        · subst hr
          exact ⟨hc.2.1, j, hsh, List.mem_cons_self _ _, hc.1, hc.2.2⟩
        · obtain ⟨hnp, jj, h2, hmem, hne, hd⟩ := hm r hr
          exact ⟨fun hin => hnp (List.mem_cons_of_mem _ hin), jj, h2,
            List.mem_cons_of_mem _ hmem, hne, hd⟩
    · obtain ⟨new', ha, hb, hn, hm⟩ := ih grp proc
      have hstep : scanLoop seed h1 t ((j, p2, hsh) :: rest) grp proc =
          scanLoop seed h1 t rest grp proc := by
        simp only [scanLoop, if_neg hc]
      refine ⟨new', ?_, ?_, hn, ?_⟩
      · rw [hstep, ha]
      · intro r; rw [hstep]; exact hb r
      · intro r hr
        obtain ⟨hnp, jj, h2, hmem, hne, hd⟩ := hm r hr
        exact ⟨hnp, jj, h2, List.mem_cons_of_mem _ hmem, hne, hd⟩

/-! ### Claim C6 -/

theorem groupLoop_min_size :
    ∀ (rem E : List (Nat × String × List Char)) (t : Nat)
      (proc : List String) (dups : List (List String)),
    (∀ g ∈ dups, 2 ≤ g.length) →
    ∀ g ∈ groupLoop E t rem proc dups, 2 ≤ g.length := by
  intro rem
  induction rem with
  | nil => intro E t proc dups hd g hg; simpa [groupLoop] using hd g hg
  | cons e rest ih =>
    obtain ⟨i, p1, hsh⟩ := e
    intro E t proc dups hd g hg
    simp only [groupLoop] at hg
    by_cases hp : p1 ∈ proc
    · rw [if_pos hp] at hg
      exact ih E t proc dups hd g hg
    · rw [if_neg hp] at hg
      by_cases hl : 1 < (scanLoop i hsh t E [p1] proc).1.length
      · rw [if_pos hl] at hg
        refine ih E t _ _ ?_ g hg
        intro g' hg'
        rcases List.mem_append.mp hg' with h | h
        · exact hd g' h
        · rw [List.mem_singleton.mp h]
          omega
      · rw [if_neg hl] at hg
        exact ih E t _ dups hd g hg

theorem find_duplicate_images_short (images : List (String × List Char))
    (t : Nat) (h : images.length ≤ 1) : find_duplicate_images images t = [] := by
  match images with
  | [] => rfl
  | [(p, hsh)] => simp [find_duplicate_images, enumF, groupLoop, scanLoop]
  | x :: y :: rest => simp at h

/-- Claim C6: every emitted group has at least two members, and inputs
of length 0 or 1 produce an empty grouping result. -/
theorem c6_min_group_size (images : List (String × List Char)) (t : Nat) :
    (∀ g ∈ find_duplicate_images images t, 2 ≤ g.length) ∧
    (images.length ≤ 1 → find_duplicate_images images t = []) :=
  ⟨groupLoop_min_size _ _ t [] [] (by simp),
   find_duplicate_images_short images t⟩

theorem c6_witness : find_duplicate_images [("A", ['f'])] 5 = [] :=
  (c6_min_group_size [("A", ['f'])] 5).2 (by decide)

/-! ### Claim C4 -/

theorem groupLoop_near (images : List (String × List Char)) (t : Nat)
    (hnd : (images.map Prod.fst).Nodup) :
    ∀ (rem : List (Nat × String × List Char)) (proc : List String)
      (dups : List (List String)),
    (∀ e ∈ rem, e ∈ enumF 0 images) →
    (∀ g ∈ dups, ∀ r ∈ g.drop 1, ∀ hs hr, (g.headD "", hs) ∈ images →
      (r, hr) ∈ images → hamming_distance hs hr ≤ t) →
    ∀ g ∈ groupLoop (enumF 0 images) t rem proc dups,
      ∀ r ∈ g.drop 1, ∀ hs hr, (g.headD "", hs) ∈ images →
        (r, hr) ∈ images → hamming_distance hs hr ≤ t := by
  intro rem
  induction rem with
  | nil =>
    intro proc dups _ hd g hg
    simp only [groupLoop] at hg
    exact hd g hg
  | cons e rest ih =>
    obtain ⟨i, p1, hsh⟩ := e
    intro proc dups hrem hd g hg
    have hrem' : ∀ e ∈ rest, e ∈ enumF 0 images :=
      fun e he => hrem e (List.mem_cons_of_mem _ he)
    have hseed : (p1, hsh) ∈ images :=
      mem_enumF_mem images 0 i (p1, hsh) (hrem _ (List.mem_cons_self _ _))
    simp only [groupLoop] at hg
    by_cases hp : p1 ∈ proc
    · rw [if_pos hp] at hg
      exact ih proc dups hrem' hd g hg
    · rw [if_neg hp] at hg
      by_cases hl : 1 < (scanLoop i hsh t (enumF 0 images) [p1] proc).1.length
      · rw [if_pos hl] at hg
        refine ih _ _ hrem' ?_ g hg
        intro g' hg' r hr hs hr' hhs hhr
        rcases List.mem_append.mp hg' with h | h
        · exact hd g' h r hr hs hr' hhs hhr
        · obtain ⟨new, ha, hb, hn, hm⟩ :=
            scanLoop_structure i hsh t (enumF 0 images) [p1] proc
          rw [List.mem_singleton.mp h] at hr hhs
          rw [ha, List.singleton_append] at hr hhs
          rw [List.drop_one, List.tail_cons] at hr
          rw [List.headD_cons] at hhs
          obtain ⟨-, j, h2, hmemE, -, hdist⟩ := hm r hr
          have hrimg : (r, h2) ∈ images := mem_enumF_mem images 0 j (r, h2) hmemE
          have hs_eq : hs = hsh := nodupFst_functional images hnd p1 hs hsh hhs hseed
          have hr_eq : hr' = h2 := nodupFst_functional images hnd r hr' h2 hhr hrimg
          rw [hs_eq, hr_eq]
          exact hdist
      · rw [if_neg hl] at hg
        exact ih _ dups hrem' hd g hg

/-- Claim C4: with pairwise-distinct references and equal-width
fingerprints, every non-representative member of every emitted group is
within the threshold Hamming distance of the group's representative
(the seed, i.e. the group's first element). -/
theorem c4_members_within_threshold (images : List (String × List Char))
    (t : Nat) (hnd : (images.map Prod.fst).Nodup)
    (hw : ∃ w, ∀ e ∈ images, (e.2 : List Char).length = w) :
    ∀ g ∈ find_duplicate_images images t, ∀ r ∈ g.drop 1,
      ∀ hs hr, (g.headD "", hs) ∈ images → (r, hr) ∈ images →
        hamming_distance hs hr ≤ t := by
  unfold find_duplicate_images
  exact groupLoop_near images t hnd (enumF 0 images) [] []
    (fun e he => he) (by simp)

theorem c4_witness : hamming_distance ['0', '0'] ['0', '7'] ≤ 5 :=
  c4_members_within_threshold [("A", ['0', '0']), ("B", ['0', '7'])] 5
    (by decide) ⟨2, by decide⟩ ["A", "B"] (by decide) "B" (by decide)
    ['0', '0'] ['0', '7'] (by decide) (by decide)

/-! ### Claim C5 -/

theorem groupLoop_partition (images : List (String × List Char)) (t : Nat)
    (hnd : (images.map Prod.fst).Nodup) :
    ∀ (rem : List (Nat × String × List Char)) (proc : List String)
      (dups : List (List String)),
    (∀ e ∈ rem, e ∈ enumF 0 images) →
    (∀ g ∈ dups, ∀ r ∈ g, r ∈ proc) →
    (∀ g ∈ dups, g.Nodup) →
    List.Pairwise (fun g1 g2 => ∀ r ∈ g1, r ∉ g2) dups →
    (∀ g ∈ dups, ∀ r ∈ g, r ∈ images.map Prod.fst) →
    (∀ g ∈ groupLoop (enumF 0 images) t rem proc dups, g.Nodup) ∧
    List.Pairwise (fun g1 g2 => ∀ r ∈ g1, r ∉ g2)
      (groupLoop (enumF 0 images) t rem proc dups) ∧
    (∀ g ∈ groupLoop (enumF 0 images) t rem proc dups, ∀ r ∈ g,
      r ∈ images.map Prod.fst) := by
  intro rem
  induction rem with
  | nil =>
    intro proc dups _ _ hnod hpw himg
    simp only [groupLoop]
    exact ⟨hnod, hpw, himg⟩
  | cons e rest ih =>
    obtain ⟨i, p1, hsh⟩ := e
    intro proc dups hrem hproc hnod hpw himg
    have hrem' : ∀ e ∈ rest, e ∈ enumF 0 images :=
      fun e he => hrem e (List.mem_cons_of_mem _ he)
    have hseedE : (i, p1, hsh) ∈ enumF 0 images := hrem _ (List.mem_cons_self _ _)
    have hseed : (p1, hsh) ∈ images := mem_enumF_mem images 0 i (p1, hsh) hseedE
    simp only [groupLoop]
    by_cases hp : p1 ∈ proc
    · rw [if_pos hp]
      exact ih proc dups hrem' hproc hnod hpw himg
    · rw [if_neg hp]
      by_cases hl : 1 < (scanLoop i hsh t (enumF 0 images) [p1] proc).1.length
      · rw [if_pos hl]
        obtain ⟨new, ha, hb, hn, hm⟩ :=
          scanLoop_structure i hsh t (enumF 0 images) [p1] proc
        rw [List.singleton_append] at ha
        have hnew_img : ∀ r ∈ new, (∃ h2, (r, h2) ∈ images) ∧ r ∉ proc := by
          intro r hr
          obtain ⟨hnp, j, h2, hmemE, -, -⟩ := hm r hr
          exact ⟨⟨h2, mem_enumF_mem images 0 j (r, h2) hmemE⟩, hnp⟩
        refine ih _ _ hrem' ?_ ?_ ?_ ?_
        · -- members of all emitted groups are claimed
          intro g hg r hr
          rcases List.mem_append.mp hg with h | h
          · exact List.mem_cons_of_mem _ ((hb r).mpr (Or.inl (hproc g h r hr)))
          · rw [List.mem_singleton.mp h, ha] at hr
            rcases List.mem_cons.mp hr with h1 | h1
            · rw [h1]; exact List.mem_cons_self _ _
            · exact List.mem_cons_of_mem _ ((hb r).mpr (Or.inr h1))
        · -- every group is duplicate-free
          intro g hg
          rcases List.mem_append.mp hg with h | h
          · exact hnod g h
          · rw [List.mem_singleton.mp h, ha]
            refine List.nodup_cons.mpr ⟨?_, hn⟩
            intro hmem
            obtain ⟨-, j, h2, hmemE, hne, -⟩ := hm p1 hmem
            exact hne (enumF_index_inj images 0 hnd j i (p1, h2) (p1, hsh)
              hmemE hseedE rfl).symm
        · -- pairwise disjoint
          rw [List.pairwise_append]
          refine ⟨hpw, List.pairwise_singleton _ _, ?_⟩
          intro g1 h1 g2 h2 r hr1 hr2
          have hrproc : r ∈ proc := hproc g1 h1 r hr1
          rw [List.mem_singleton.mp h2, ha] at hr2
          rcases List.mem_cons.mp hr2 with h3 | h3
          · rw [h3] at hrproc; exact hp hrproc
          · exact (hnew_img r h3).2 hrproc
        · -- members come from the input references
          intro g hg r hr
          rcases List.mem_append.mp hg with h | h
          · exact himg g h r hr
          · rw [List.mem_singleton.mp h, ha] at hr
            rcases List.mem_cons.mp hr with h1 | h1
            · rw [h1]; exact List.mem_map.mpr ⟨(p1, hsh), hseed, rfl⟩
            · obtain ⟨⟨h2, hmem⟩, -⟩ := hnew_img r h1
              exact List.mem_map.mpr ⟨(r, h2), hmem, rfl⟩
      · rw [if_neg hl]
        obtain ⟨new, ha, hb, hn, hm⟩ :=
          scanLoop_structure i hsh t (enumF 0 images) [p1] proc
        have hproc' : ∀ g ∈ dups, ∀ r ∈ g, r ∈
            (scanLoop i hsh t (enumF 0 images) [p1] proc).2 := by
          intro g hg r hr
          exact (hb r).mpr (Or.inl (hproc g hg r hr))
        exact ih _ dups hrem' hproc' hnod hpw himg

/-- Claim C5: with pairwise-distinct references, every group is
duplicate-free, the emitted groups are pairwise disjoint, and every
group member is one of the input references. -/
theorem c5_groups_partition (images : List (String × List Char)) (t : Nat)
    (hnd : (images.map Prod.fst).Nodup) :
    (∀ g ∈ find_duplicate_images images t, g.Nodup) ∧
    List.Pairwise (fun g1 g2 => ∀ r ∈ g1, r ∉ g2)
      (find_duplicate_images images t) ∧
    (∀ g ∈ find_duplicate_images images t, ∀ r ∈ g,
      r ∈ images.map Prod.fst) := by
  unfold find_duplicate_images
  exact groupLoop_partition images t hnd (enumF 0 images) [] []
    (fun e he => he) (by simp) (by simp) List.Pairwise.nil (by simp)

theorem c5_witness :
    "D" ∈ ([("A", ['0', '0']), ("B", ['0', '1']), ("C", ['f', '0']),
      ("D", ['f', '1'])].map Prod.fst) :=
  (c5_groups_partition [("A", ['0', '0']), ("B", ['0', '1']),
    ("C", ['f', '0']), ("D", ['f', '1'])] 1 (by decide)).2.2
    ["C", "D"] (by decide) "D" (by decide)

/-! ### Claim C7 -/

theorem mem_enumF_ub : ∀ (l : List α) (n j : Nat) (x : α),
    (j, x) ∈ enumF n l → j < n + l.length := by
  intro l
  induction l with
  | nil => intro n j x h; simp [enumF] at h
  | cons y ys ih =>
    intro n j x h
    simp only [enumF, List.mem_cons, Prod.mk.injEq] at h
    rcases h with ⟨hj, _⟩ | h
    · simp; omega
    · have := ih (n + 1) j x h
      simp only [List.length_cons]
      omega

theorem scanLoop_append (seed : Nat) (h1 : List Char) (t : Nat) :
    ∀ (l1 l2 : List (Nat × String × List Char)) (grp proc : List String),
    scanLoop seed h1 t (l1 ++ l2) grp proc =
      scanLoop seed h1 t l2 (scanLoop seed h1 t l1 grp proc).1
        (scanLoop seed h1 t l1 grp proc).2 := by
  intro l1
  induction l1 with
  | nil => intro l2 grp proc; simp [scanLoop]
  | cons e l1 ih =>
    obtain ⟨j, p2, hsh⟩ := e
    intro l2 grp proc
    by_cases hc : seed ≠ j ∧ p2 ∉ proc ∧ hamming_distance h1 hsh ≤ t
    · simp only [List.cons_append, scanLoop, if_pos hc]
      exact ih l2 (grp ++ [p2]) (p2 :: proc)
    · simp only [List.cons_append, scanLoop, if_neg hc]
      exact ih l2 grp proc

theorem scanLoop_noop (seed : Nat) (h1 : List Char) (t : Nat) :
    ∀ (l : List (Nat × String × List Char)) (grp proc : List String),
    (∀ e ∈ l, ¬(seed ≠ e.1 ∧ e.2.1 ∉ proc ∧ hamming_distance h1 e.2.2 ≤ t)) →
    scanLoop seed h1 t l grp proc = (grp, proc) := by
  intro l
  induction l with
  | nil => intro grp proc _; rfl
  | cons e rest ih =>
    obtain ⟨j, p2, hsh⟩ := e
    intro grp proc hall
    have hhead := hall (j, p2, hsh) (List.mem_cons_self _ _)
    simp only [scanLoop, if_neg hhead]
    exact ih grp proc (fun e he => hall e (List.mem_cons_of_mem _ he))

/-- Scanning the enumerated tail with every index above the seed is the
spec's forward-only scan. -/
theorem scanLoop_enumF_spec (seed : Nat) (h1 : List Char) (t : Nat) :
    ∀ (l : List (String × List Char)) (j0 : Nat) (grp proc : List String),
    seed < j0 →
    scanLoop seed h1 t (enumF j0 l) grp proc = scanLoopSpec h1 t l grp proc := by
  intro l
  induction l with
  | nil => intro j0 grp proc _; rfl
  | cons x rest ih =>
    obtain ⟨p2, hsh⟩ := x
    intro j0 grp proc hj
    simp only [enumF]
    by_cases hc : p2 ∉ proc ∧ hamming_distance h1 hsh ≤ t
    · simp only [scanLoop, scanLoopSpec,
        if_pos (show seed ≠ j0 ∧ p2 ∉ proc ∧ hamming_distance h1 hsh ≤ t from
          ⟨by omega, hc.1, hc.2⟩), if_pos hc]
      exact ih (j0 + 1) (grp ++ [p2]) (p2 :: proc) (by omega)
    · simp only [scanLoop, scanLoopSpec,
        if_neg (show ¬(seed ≠ j0 ∧ p2 ∉ proc ∧ hamming_distance h1 hsh ≤ t) from
          fun h => hc ⟨h.2.1, h.2.2⟩), if_neg hc]
      exact ih (j0 + 1) grp proc (by omega)

theorem scanLoop_length_mono (seed : Nat) (h1 : List Char) (t : Nat)
    (l : List (Nat × String × List Char)) (grp proc : List String) :
    grp.length ≤ (scanLoop seed h1 t l grp proc).1.length := by
  obtain ⟨new, ha, -, -, -⟩ := scanLoop_structure seed h1 t l grp proc
  rw [ha, List.length_append]
  omega

/-- A scan that did not grow the group claimed nothing: the claimed set
is unchanged and every scanned entry failed the claim condition. -/
theorem scanLoop_stall (seed : Nat) (h1 : List Char) (t : Nat) :
    ∀ (l : List (Nat × String × List Char)) (grp proc : List String),
    (scanLoop seed h1 t l grp proc).1.length = grp.length →
    (scanLoop seed h1 t l grp proc).2 = proc ∧
    (∀ e ∈ l, ¬(seed ≠ e.1 ∧ e.2.1 ∉ proc ∧ hamming_distance h1 e.2.2 ≤ t)) := by
  intro l
  induction l with
  | nil => intro grp proc _; exact ⟨rfl, by simp⟩
  | cons e rest ih =>
    obtain ⟨j, p2, hsh⟩ := e
    intro grp proc hlen
    by_cases hc : seed ≠ j ∧ p2 ∉ proc ∧ hamming_distance h1 hsh ≤ t
    · exfalso
      rw [show scanLoop seed h1 t ((j, p2, hsh) :: rest) grp proc =
          scanLoop seed h1 t rest (grp ++ [p2]) (p2 :: proc) from by
        simp only [scanLoop, if_pos hc]] at hlen
      have := scanLoop_length_mono seed h1 t rest (grp ++ [p2]) (p2 :: proc)
      rw [List.length_append] at this
      simp at this
      omega
    · rw [show scanLoop seed h1 t ((j, p2, hsh) :: rest) grp proc =
          scanLoop seed h1 t rest grp proc from by
        simp only [scanLoop, if_neg hc]] at hlen ⊢
      obtain ⟨h1', h2'⟩ := ih grp proc hlen
      refine ⟨h1', ?_⟩
      intro e he
      rcases List.mem_cons.mp he with he | he
      · rw [he]; exact hc
      · exact h2' e he

/-- Key equivalence: once the outer loop has passed position `k`, every
still-unclaimed earlier entry is beyond the threshold from every other
still-unclaimed entry (it seeded a scan of the whole list and claimed
nothing), so a full scan from the seed at `k` behaves like the
forward-only scan of the spec.  The invariant is the big implication
hypothesis. -/
theorem groupLoop_eq_spec (images : List (String × List Char)) (t : Nat) :
    ∀ (l : List (String × List Char)) (k : Nat) (proc : List String)
      (dups : List (List String)),
    images.drop k = l →
    (∀ j p2 h2, (j, (p2, h2)) ∈ enumF 0 images → j < k → p2 ∉ proc →
      ∀ j' p' h', (j', (p', h')) ∈ enumF 0 images → j' ≠ j → p' ∉ proc →
        t < hamming_distance h2 h') →
    groupLoop (enumF 0 images) t (enumF k l) proc dups =
      groupLoopSpec t l proc dups := by
  intro l
  induction l with
  | nil => intro k proc dups _ _; rfl
  | cons x l2 ih =>
    obtain ⟨p1, hsh⟩ := x
    intro k proc dups hdrop hinv
    have hklt : k < images.length := by
      have := congrArg List.length hdrop
      rw [List.length_drop] at this
      simp only [List.length_cons] at this
      omega
    have hdrop2 : images.drop (k + 1) = l2 := by
      rw [← List.tail_drop, hdrop, List.tail_cons]
    have htklen : (images.take k).length = k := by
      rw [List.length_take]
      omega
    have hE : enumF 0 images =
        enumF 0 (images.take k) ++ ((k, (p1, hsh)) :: enumF (k + 1) l2) := by
      conv_lhs => rw [← List.take_append_drop k images, hdrop]
      rw [enumF_append, htklen, Nat.zero_add]
      rfl
    have hseedE : (k, (p1, hsh)) ∈ enumF 0 images := by
      rw [hE]
      exact List.mem_append_right _ (List.mem_cons_self _ _)
    simp only [enumF, groupLoop, groupLoopSpec]
    by_cases hp : p1 ∈ proc
    · rw [if_pos hp, if_pos hp]
      refine ih (k + 1) proc dups hdrop2 ?_
      intro j p2 h2 hmem hj hp2 j' p' h' hmem' hne' hp'
      by_cases hjk : j < k
      · exact hinv j p2 h2 hmem hjk hp2 j' p' h' hmem' hne' hp'
      · have hjeq : j = k := by omega
        rw [hjeq] at hmem
        have := enumF_functional images 0 k (p2, h2) (p1, hsh) hmem hseedE
        rw [show p2 = p1 from congrArg Prod.fst this] at hp2
        exact absurd hp hp2
    · rw [if_neg hp, if_neg hp]
      obtain ⟨new, ha, hb, -, -⟩ :=
        scanLoop_structure k hsh t (enumF 0 images) [p1] proc
      have hscan : scanLoop k hsh t (enumF 0 images) [p1] proc =
          scanLoopSpec hsh t l2 [p1] proc := by
        rw [hE, scanLoop_append]
        have hnoop : scanLoop k hsh t (enumF 0 (images.take k)) [p1] proc =
            ([p1], proc) := by
          apply scanLoop_noop
          rintro ⟨j', p', h'⟩ he ⟨hne, hpn, hdist⟩
          have hdist2 : hamming_distance hsh h' ≤ t := hdist
          have hpn2 : p' ∉ proc := hpn
          have hub := mem_enumF_ub (images.take k) 0 j' (p', h') he

          rw [htklen, Nat.zero_add] at hub
          have heE : (j', (p', h')) ∈ enumF 0 images := by
            rw [hE]
            exact List.mem_append_left _ he
          have := hinv j' p' h' heE hub hpn2 k p1 hsh hseedE (by omega) hp
          rw [hamming_distance_comm] at this
          omega
        rw [hnoop]
        have hhead : scanLoop k hsh t ((k, (p1, hsh)) :: enumF (k + 1) l2)
            ([p1], proc).1 ([p1], proc).2 =
            scanLoop k hsh t (enumF (k + 1) l2) [p1] proc := by
          simp only [scanLoop]
          rw [if_neg]
          rintro ⟨hne, -⟩
          exact hne rfl
        rw [hhead]
        exact scanLoop_enumF_spec k hsh t l2 (k + 1) [p1] proc (by omega)
      rw [hscan] at ha hb ⊢
      by_cases hl : 1 < (scanLoopSpec hsh t l2 [p1] proc).1.length
      · rw [if_pos hl, if_pos hl]
        refine ih (k + 1) _ _ hdrop2 ?_
        intro j p2 h2 hmem hj hp2 j' p' h' hmem' hne' hp'
        have hsub : ∀ r, r ∈ proc →
            r ∈ p1 :: (scanLoopSpec hsh t l2 [p1] proc).2 :=
          fun r hr => List.mem_cons_of_mem _ ((hb r).mpr (Or.inl hr))
        by_cases hjk : j < k
        · exact hinv j p2 h2 hmem hjk (fun hin => hp2 (hsub p2 hin))
            j' p' h' hmem' hne' (fun hin => hp' (hsub p' hin))
        · exfalso
          have hjeq : j = k := by omega
          rw [hjeq] at hmem
          have := enumF_functional images 0 k (p2, h2) (p1, hsh) hmem hseedE
          rw [show p2 = p1 from congrArg Prod.fst this] at hp2
          exact hp2 (List.mem_cons_self _ _)
      · rw [if_neg hl, if_neg hl]
        have hlen1 : (scanLoopSpec hsh t l2 [p1] proc).1.length = 1 := by
          have hmono := scanLoop_length_mono k hsh t (enumF 0 images) [p1] proc
          rw [hscan] at hmono
          simp only [List.length_singleton] at hmono
          omega
        obtain ⟨hproc_eq, hallfail⟩ := scanLoop_stall k hsh t (enumF 0 images)
          [p1] proc (by rw [hscan, hlen1]; rfl)
        rw [hscan] at hproc_eq
        rw [hproc_eq]
        refine ih (k + 1) proc dups hdrop2 ?_
        intro j p2 h2 hmem hj hp2 j' p' h' hmem' hne' hp'
        by_cases hjk : j < k
        · exact hinv j p2 h2 hmem hjk hp2 j' p' h' hmem' hne' hp'
        · have hjeq : j = k := by omega
          rw [hjeq] at hmem hne'
          have hfun := enumF_functional images 0 k (p2, h2) (p1, hsh) hmem hseedE
          have hp2eq : p2 = p1 := congrArg Prod.fst hfun
          have hh2eq : h2 = hsh := congrArg Prod.snd hfun
          have := hallfail (j', (p', h')) hmem'
          rw [hh2eq]
          simp only [not_and, not_le] at this
          exact this (by omega) hp'

/-- Claim C7: with pairwise-distinct references, the implemented
grouping (each seed rescans the whole list, guarded by the claimed set
and the index check) returns exactly the grouping of the spec's
forward-only-scan algorithm: same groups, same order, same member
order.  The proof shows a seed's scan can never match an unclaimed
earlier entry, because that entry already seeded a full scan that
claimed nothing within the threshold. -/
theorem c7_full_scan_eq_forward_scan (images : List (String × List Char))
    (t : Nat) (hnd : (images.map Prod.fst).Nodup) :
    find_duplicate_images images t = find_duplicate_images_spec images t := by
  unfold find_duplicate_images find_duplicate_images_spec
  have h := groupLoop_eq_spec images t images 0 [] [] (by simp)
    (by intro j p2 h2 _ hj; omega)
  exact h

theorem c7_witness :
    find_duplicate_images
      [("A", ['0', '0']), ("B", ['1', 'f']), ("C", ['7', 'f'])] 2 =
    find_duplicate_images_spec
      [("A", ['0', '0']), ("B", ['1', 'f']), ("C", ['7', 'f'])] 2 :=
  c7_full_scan_eq_forward_scan
    [("A", ['0', '0']), ("B", ['1', 'f']), ("C", ['7', 'f'])] 2 (by decide)

/-! ### Claim C3 -/

/-- Claim C3, counterexample: grouping is not threshold-monotonic.  With
`d(A,B) = 5`, `d(B,C) = 2`, `d(A,C) = 7` and order `[A, B, C]`, at
threshold 2 the seed `A` claims nothing and `B` then groups with `C`,
so `C` is a group member; at threshold 5 the seed `A` claims `B` first,
leaving `C` alone and ungrouped.  Raising the threshold from 2 to 5
removes the existing member `C`. -/
theorem c3_counterexample :
    2 ≤ 5 ∧
    (∃ g ∈ find_duplicate_images
      [("A", ['0', '0']), ("B", ['1', 'f']), ("C", ['7', 'f'])] 2, "C" ∈ g) ∧
    ¬ (∃ g ∈ find_duplicate_images
      [("A", ['0', '0']), ("B", ['1', 'f']), ("C", ['7', 'f'])] 5, "C" ∈ g) := by
  decide

theorem enumF_map_path {β γ : Type} : ∀ (l : List (β × γ)) (n : Nat),
    (enumF n l).map (fun e => e.2.1) = l.map Prod.fst := by
  intro l
  induction l with
  | nil => intro n; rfl
  | cons x xs ih => intro n; simp [enumF, ih]

/-- Under distinct references and a fresh claimed set, the inner scan is
a filter: it claims exactly the entries away from the seed index and
within threshold, in list order. -/
theorem scanLoop_filter (seed : Nat) (h1 : List Char) (t : Nat) :
    ∀ (l : List (Nat × String × List Char)) (grp proc : List String),
    (∀ e ∈ l, e.2.1 ∉ proc) → (l.map (fun e => e.2.1)).Nodup →
    (scanLoop seed h1 t l grp proc).1 =
      grp ++ (l.filter (fun e => decide (seed ≠ e.1) &&
        decide (hamming_distance h1 e.2.2 ≤ t))).map (fun e => e.2.1) := by
  intro l
  induction l with
  | nil => intro grp proc _ _; simp [scanLoop]
  | cons e rest ih =>
    obtain ⟨j, p2, hsh⟩ := e
    intro grp proc hfresh hnd
    rw [List.map_cons, List.nodup_cons] at hnd
    have hp2 : p2 ∉ proc := hfresh (j, p2, hsh) (List.mem_cons_self _ _)
    by_cases hjd : seed ≠ j ∧ hamming_distance h1 hsh ≤ t
    · rw [show scanLoop seed h1 t ((j, p2, hsh) :: rest) grp proc =
          scanLoop seed h1 t rest (grp ++ [p2]) (p2 :: proc) from by
        simp only [scanLoop, if_pos (show seed ≠ j ∧ p2 ∉ proc ∧
          hamming_distance h1 hsh ≤ t from ⟨hjd.1, hp2, hjd.2⟩)]]
      have hfresh2 : ∀ e ∈ rest, e.2.1 ∉ p2 :: proc := by
        intro e he
        rw [List.mem_cons]
        rintro (h | h)
        · exact hnd.1 (List.mem_map.mpr ⟨e, he, h⟩)
        · exact hfresh e (List.mem_cons_of_mem _ he) h
      rw [ih (grp ++ [p2]) (p2 :: proc) hfresh2 hnd.2]
      rw [List.filter_cons, if_pos (by simp [hjd.1, hjd.2])]
      simp [List.append_assoc]
    · rw [show scanLoop seed h1 t ((j, p2, hsh) :: rest) grp proc =
          scanLoop seed h1 t rest grp proc from by
        simp only [scanLoop,
          if_neg (show ¬(seed ≠ j ∧ p2 ∉ proc ∧ hamming_distance h1 hsh ≤ t)
            from fun h => hjd ⟨h.1, h.2.2⟩)]]
      rw [ih grp proc (fun e he => hfresh e (List.mem_cons_of_mem _ he)) hnd.2]
      rw [List.filter_cons, if_neg (by simpa using hjd)]

theorem groupLoop_acc :
    ∀ (rem E : List (Nat × String × List Char)) (t : Nat)
      (proc : List String) (dups : List (List String)),
    groupLoop E t rem proc dups = dups ++ groupLoop E t rem proc [] := by
  intro rem
  induction rem with
  | nil => intro E t proc dups; simp [groupLoop]
  | cons e rest ih =>
    obtain ⟨i, p1, hsh⟩ := e
    intro E t proc dups
    simp only [groupLoop]
    by_cases hp : p1 ∈ proc
    · rw [if_pos hp, if_pos hp]
      exact ih E t proc dups
    · rw [if_neg hp, if_neg hp]
      by_cases hl : 1 < (scanLoop i hsh t E [p1] proc).1.length
      · rw [if_pos hl, if_pos hl,
          ih E t (p1 :: (scanLoop i hsh t E [p1] proc).2)
            (dups ++ [(scanLoop i hsh t E [p1] proc).1]),
          ih E t (p1 :: (scanLoop i hsh t E [p1] proc).2)
            ([] ++ [(scanLoop i hsh t E [p1] proc).1])]
        simp [List.append_assoc]
      · rw [if_neg hl, if_neg hl]
        exact ih E t _ dups

/-- Every group of the result was already accumulated or is headed by a
reference appearing among the remaining seeds. -/
theorem groupLoop_heads :
    ∀ (rem E : List (Nat × String × List Char)) (t : Nat)
      (proc : List String) (dups : List (List String)),
    ∀ g ∈ groupLoop E t rem proc dups,
      g ∈ dups ∨ ∃ e ∈ rem, g.headD "" = e.2.1 := by
  intro rem
  induction rem with
  | nil =>
    intro E t proc dups g hg
    simp only [groupLoop] at hg
    exact Or.inl hg
  | cons e rest ih =>
    obtain ⟨i, p1, hsh⟩ := e
    intro E t proc dups g hg
    simp only [groupLoop] at hg
    by_cases hp : p1 ∈ proc
    · rw [if_pos hp] at hg
      rcases ih E t proc dups g hg with h | ⟨e', he', hh⟩
      · exact Or.inl h
      · exact Or.inr ⟨e', List.mem_cons_of_mem _ he', hh⟩
    · rw [if_neg hp] at hg
      by_cases hl : 1 < (scanLoop i hsh t E [p1] proc).1.length
      · rw [if_pos hl] at hg
        rcases ih E t _ _ g hg with h | ⟨e', he', hh⟩
        · rcases List.mem_append.mp h with h | h
          · exact Or.inl h
          · obtain ⟨new, ha, -, -, -⟩ := scanLoop_structure i hsh t E [p1] proc
            rw [List.mem_singleton.mp h, ha, List.singleton_append]
            exact Or.inr ⟨(i, p1, hsh), List.mem_cons_self _ _, rfl⟩
        · exact Or.inr ⟨e', List.mem_cons_of_mem _ he', hh⟩
      · rw [if_neg hl] at hg
        rcases ih E t _ dups g hg with h | ⟨e', he', hh⟩
        · exact Or.inl h
        · exact Or.inr ⟨e', List.mem_cons_of_mem _ he', hh⟩

theorem mem_of_head_eq_some {β : Type} {l : List β} {a : β}
    (h : l.head? = some a) : a ∈ l := by
  cases l with
  | nil => simp at h
  | cons x xs =>
    simp only [List.head?_cons, Option.some.injEq] at h
    rw [← h]
    exact List.mem_cons_self _ _

/-- Unfolding equation of the outer loop at a cons cell. -/
theorem groupLoop_step (E : List (Nat × String × List Char)) (t i : Nat)
    (p1 : String) (hsh : List Char)
    (rem2 : List (Nat × String × List Char)) (proc : List String)
    (dups : List (List String)) :
    groupLoop E t ((i, p1, hsh) :: rem2) proc dups =
      if p1 ∈ proc then groupLoop E t rem2 proc dups
      else if 1 < (scanLoop i hsh t E [p1] proc).1.length then
        groupLoop E t rem2 (p1 :: (scanLoop i hsh t E [p1] proc).2)
          (dups ++ [(scanLoop i hsh t E [p1] proc).1])
      else groupLoop E t rem2 (scanLoop i hsh t E [p1] proc).2 dups := rfl

/-- The first seed's scan, as a filter of the enumerated input. -/
theorem c3_first_scan (p1 : String) (h1 : List Char)
    (rest : List (String × List Char)) (s : Nat)
    (hnd : (((p1, h1) :: rest).map Prod.fst).Nodup) :
    (scanLoop 0 h1 s (enumF 0 ((p1, h1) :: rest)) [p1] []).1 =
      p1 :: ((enumF 0 ((p1, h1) :: rest)).filter (fun e =>
        decide (0 ≠ e.1) &&
        decide (hamming_distance h1 e.2.2 ≤ s))).map (fun e => e.2.1) := by
  rw [scanLoop_filter 0 h1 s _ [p1] [] (by simp)
    (by rw [enumF_map_path]; exact hnd)]
  rfl

/-- When the first seed claims nothing, the result is whatever the later
seeds produce from an empty claimed set. -/
theorem c3_head_empty (p1 : String) (h1 : List Char)
    (rest : List (String × List Char)) (s : Nat)
    (hnd : (((p1, h1) :: rest).map Prod.fst).Nodup)
    (hM : ((enumF 0 ((p1, h1) :: rest)).filter (fun e =>
      decide (0 ≠ e.1) &&
      decide (hamming_distance h1 e.2.2 ≤ s))).map (fun e => e.2.1) = []) :
    find_duplicate_images ((p1, h1) :: rest) s =
      groupLoop (enumF 0 ((p1, h1) :: rest)) s (enumF 1 rest) [] [] := by
  obtain ⟨new, ha, hb, -, -⟩ :=
    scanLoop_structure 0 h1 s (enumF 0 ((p1, h1) :: rest)) [p1] []
  have hres1 : (scanLoop 0 h1 s (enumF 0 ((p1, h1) :: rest)) [p1] []).1 =
      [p1] := by
    rw [c3_first_scan p1 h1 rest s hnd, hM]
  have hnew : new = [] := by
    rw [hres1] at ha
    have := congrArg List.length ha
    simp at this
    exact this
  have hres2 : (scanLoop 0 h1 s (enumF 0 ((p1, h1) :: rest)) [p1] []).2 =
      [] := by
    refine List.eq_nil_iff_forall_not_mem.mpr (fun r hrm => ?_)
    rcases (hb r).mp hrm with h | h
    · simp at h
    · rw [hnew] at h; simp at h
  have h0 : find_duplicate_images ((p1, h1) :: rest) s =
      groupLoop (enumF 0 ((p1, h1) :: rest)) s
        ((0, (p1, h1)) :: enumF 1 rest) [] [] := rfl
  rw [h0, groupLoop_step, if_neg (by simp), if_neg (by rw [hres1]; simp),
    hres2]

/-- When the first seed claims something, the first emitted group is the
seed followed by exactly its filter matches. -/
theorem c3_head_nonempty (p1 : String) (h1 : List Char)
    (rest : List (String × List Char)) (s : Nat)
    (hnd : (((p1, h1) :: rest).map Prod.fst).Nodup)
    (hM : ((enumF 0 ((p1, h1) :: rest)).filter (fun e =>
      decide (0 ≠ e.1) &&
      decide (hamming_distance h1 e.2.2 ≤ s))).map (fun e => e.2.1) ≠ []) :
    (find_duplicate_images ((p1, h1) :: rest) s).head? =
      some (p1 :: ((enumF 0 ((p1, h1) :: rest)).filter (fun e =>
        decide (0 ≠ e.1) &&
        decide (hamming_distance h1 e.2.2 ≤ s))).map (fun e => e.2.1)) := by
  have hres1 := c3_first_scan p1 h1 rest s hnd
  have h0 : find_duplicate_images ((p1, h1) :: rest) s =
      groupLoop (enumF 0 ((p1, h1) :: rest)) s
        ((0, (p1, h1)) :: enumF 1 rest) [] [] := rfl
  rw [h0, groupLoop_step, if_neg (by simp), if_pos (by
    rw [hres1]
    simp only [List.length_cons, Nat.lt_add_one_iff]
    exact List.length_pos.mpr hM),
    groupLoop_acc, hres1]
  rfl

/-- Claim C3, amended: threshold-monotonicity does hold for the group
seeded by the first input pair.  If at threshold `t` the first result
group is headed by the first reference, then at any `t' ≥ t` the first
result group is still headed by it and contains every member it had at
`t` (the first seed's matches are a filter of the input, monotone in the
threshold).  For the grouping as a whole monotonicity fails (see the
counterexample). -/
theorem c3_amended_first_group_monotone (p1 : String) (h1 : List Char)
    (rest : List (String × List Char)) (t t' : Nat) (htt : t ≤ t')
    (hnd : (((p1, h1) :: rest).map Prod.fst).Nodup) :
    ∀ g, (find_duplicate_images ((p1, h1) :: rest) t).head? = some g →
      g.headD "" = p1 →
      ∀ r ∈ g, ∃ g',
        (find_duplicate_images ((p1, h1) :: rest) t').head? = some g' ∧
        g'.headD "" = p1 ∧ r ∈ g' := by
  intro g hg hhead r hr
  by_cases hMt : ((enumF 0 ((p1, h1) :: rest)).filter (fun e =>
      decide (0 ≠ e.1) &&
      decide (hamming_distance h1 e.2.2 ≤ t))).map (fun e => e.2.1) = []
  · -- impossible: the later groups are all headed by later references
    exfalso
    rw [c3_head_empty p1 h1 rest t hnd hMt] at hg
    have hgmem := mem_of_head_eq_some hg
    rcases groupLoop_heads (enumF 1 rest) _ t [] [] g hgmem with h | ⟨e, he, hh⟩
    · simp at h
    · obtain ⟨j, p2, h2⟩ := e
      have hp2 : (p2, h2) ∈ rest := mem_enumF_mem rest 1 j (p2, h2) he
      rw [List.map_cons, List.nodup_cons] at hnd
      apply hnd.1
      rw [show (p1 : String) = p2 from by rw [← hhead, hh]]
      exact List.mem_map.mpr ⟨(p2, h2), hp2, rfl⟩
  · have hgval : g = p1 :: ((enumF 0 ((p1, h1) :: rest)).filter (fun e =>
        decide (0 ≠ e.1) &&
        decide (hamming_distance h1 e.2.2 ≤ t))).map (fun e => e.2.1) := by
      have := c3_head_nonempty p1 h1 rest t hnd hMt
      rw [this] at hg
      exact (Option.some.injEq _ _ ▸ hg).symm
    have hmono : ∀ x, x ∈ ((enumF 0 ((p1, h1) :: rest)).filter (fun e =>
        decide (0 ≠ e.1) &&
        decide (hamming_distance h1 e.2.2 ≤ t))).map (fun e => e.2.1) →
        x ∈ ((enumF 0 ((p1, h1) :: rest)).filter (fun e =>
        decide (0 ≠ e.1) &&
        decide (hamming_distance h1 e.2.2 ≤ t'))).map (fun e => e.2.1) := by
      intro x hx
      obtain ⟨e, hef, heq⟩ := List.mem_map.mp hx
      obtain ⟨he, hpred⟩ := List.mem_filter.mp hef
      refine List.mem_map.mpr ⟨e, List.mem_filter.mpr ⟨he, ?_⟩, heq⟩
      simp only [Bool.and_eq_true, decide_eq_true_eq] at hpred ⊢
      exact ⟨hpred.1, by omega⟩
    have hMt' : ((enumF 0 ((p1, h1) :: rest)).filter (fun e =>
        decide (0 ≠ e.1) &&
        decide (hamming_distance h1 e.2.2 ≤ t'))).map (fun e => e.2.1) ≠ [] := by
      obtain ⟨x, hx⟩ := List.exists_mem_of_ne_nil _ hMt
      exact List.ne_nil_of_mem (hmono x hx)
    refine ⟨_, c3_head_nonempty p1 h1 rest t' hnd hMt', by simp, ?_⟩
    rw [hgval] at hr
    rcases List.mem_cons.mp hr with h | h
    · rw [h]; exact List.mem_cons_self _ _
    · exact List.mem_cons_of_mem _ (hmono r h)

theorem c3_witness :
    ∃ g', (find_duplicate_images [("A", ['0', '0']), ("B", ['0', '3'])] 3).head? =
        some g' ∧ g'.headD "" = "A" ∧ "B" ∈ g' :=
  c3_amended_first_group_monotone "A" ['0', '0'] [("B", ['0', '3'])] 2 3
    (by decide) (by decide) ["A", "B"] (by decide) (by decide) "B" (by decide)
